import Mathlib

/-!
# AeroDPI: the slot pool (`include/memory_pool.h`) and the packet types (`include/types.h`)

A shallow embedding of `DPI::MemoryPool`, `DPI::FiveTuple` and `DPI::PacketJob`.

* `size_t` values are natural numbers below `2 ^ 64`; `fetch_sub` and `fetch_add` on the
  atomic cursor wrap modulo `2 ^ 64`, as the unsigned C++ operations do.
* `std::vector<size_t> free_stack` is a list of naturals.  An access `free_stack[k]` with
  `k` outside the vector is reported as a `Fault` instead of being given a meaning.
* `std::vector<uint8_t> pool` is represented by its length only: the class never reads or writes
  the bytes, it only forms the address `&pool[k]`, which is represented by the position `k`.
* `acquire` and `release` are each the composition of their atomic cursor operation and the
  rest of the body; the concurrent model interleaves exactly these two halves.
* The constructor can fail: its two `std::vector` members throw `std::length_error` or
  `std::bad_alloc`.  `MemoryPool.construct` is the constructor with these failures, over an
  `Allocator` that stands for the standard library and the platform; `MemoryPool.new` is the
  object it builds when both vectors are allocated.
-/

namespace DPI

/-! ## memory_pool.h -/

/-- The number of values of a 64-bit `size_t`. -/
def SIZE_T_MOD : Nat := 2 ^ 64

/-- Out-of-range subscript on `free_stack`, with the offending position. -/
inductive Fault where
  | free_stack_range (pos : Nat)
  deriving DecidableEq, Repr

/-- The constant `static constexpr size_t SLOT_SIZE = 2048;`. -/
def SLOT_SIZE : Nat := 2048

/-- The data members of `class MemoryPool`; `pool` is the length of the byte arena. -/
structure MemoryPool where
  pool : Nat
  free_stack : List Nat
  top : Nat
  deriving DecidableEq, Repr

/-- Why the constructor of a `std::vector` throws: `std::length_error` when the requested size
exceeds `max_size()`, `std::bad_alloc` when the storage cannot be obtained. -/
inductive CtorFailure where
  | length_error
  | bad_alloc
  deriving DecidableEq, Repr

/-- What the constructor depends on outside the class: the number of bytes the allocator can
still supply, and the values of `std::vector<uint8_t>::max_size()` and
`std::vector<size_t>::max_size()` of the standard library in use. -/
structure Allocator where
  avail : Nat
  max_size_bytes : Nat
  max_size_words : Nat
  deriving DecidableEq, Repr

/-- The constructor `std::vector<T>(n)` for elements of `elem_size` bytes, as far as storage
goes: it throws `std::length_error` when `n` exceeds `max_size`, throws `std::bad_alloc` when
`n * elem_size` bytes are not available, and otherwise takes them from the allocator. -/
def Allocator.vector (a : Allocator) (max_size elem_size n : Nat) :
    Except CtorFailure Allocator :=
  if max_size < n then .error .length_error
  else if a.avail < n * elem_size then .error .bad_alloc
  else .ok { a with avail := a.avail - n * elem_size }

namespace MemoryPool

/-- The object that the constructor `MemoryPool(size_t slot_count)` builds once its two vectors
are allocated: the arena has `slot_count * SLOT_SIZE` bytes (a `size_t` product),
`free_stack[i] = slot_count - 1 - i`, and `top = slot_count`. -/
def new (slot_count : Nat) : MemoryPool :=
  { pool := (slot_count * SLOT_SIZE) % SIZE_T_MOD
    free_stack := (List.range slot_count).map (fun i => slot_count - 1 - i)
    top := slot_count }

/-- The constructor `MemoryPool(size_t slot_count)` with its failures.  The members are
initialized in the order of their declaration: `pool(slot_count * SLOT_SIZE)`, a vector of
bytes whose size is the `size_t` product, then `free_stack(slot_count)`, a vector of 8-byte
`size_t`, then `top(slot_count)`; the body fills `free_stack`.  An exception of either vector
leaves no pool. -/
def construct (a : Allocator) (slot_count : Nat) : Except CtorFailure MemoryPool :=
  match a.vector a.max_size_bytes 1 ((slot_count * SLOT_SIZE) % SIZE_T_MOD) with
  | .error e => .error e
  | .ok a1 =>
    match a1.vector a1.max_size_words 8 slot_count with
    | .error e => .error e
    | .ok _ => .ok (MemoryPool.new slot_count)

/-- The call `top.fetch_sub(n)`: returns the old value, stores `old - n` modulo `2 ^ 64`. -/
def fetch_sub (p : MemoryPool) (n : Nat) : Nat × MemoryPool :=
  (p.top, { p with top := (p.top + (SIZE_T_MOD - n % SIZE_T_MOD)) % SIZE_T_MOD })

/-- The call `top.fetch_add(n)`: returns the old value, stores `old + n` modulo `2 ^ 64`. -/
def fetch_add (p : MemoryPool) (n : Nat) : Nat × MemoryPool :=
  (p.top, { p with top := (p.top + n) % SIZE_T_MOD })

/-- What `acquire` gives back: the pool afterwards, the value of the caller's `index` variable
afterwards, and the returned pointer (`none` is `nullptr`, `some k` is `&pool[k]`). -/
structure Acquired where
  pool : MemoryPool
  index : Nat
  ptr : Option Nat
  deriving DecidableEq, Repr

/-- The body of `acquire` after its `fetch_sub`: the test `old_top == 0` with the compensating
`fetch_add` and `return nullptr`, otherwise the read `index = free_stack[old_top - 1]` and
`return &pool[index * SLOT_SIZE]`. -/
def acquire_rest (p : MemoryPool) (old_top index : Nat) : Except Fault Acquired :=
  if old_top = 0 then
    .ok { pool := (p.fetch_add 1).2, index := index, ptr := none }
  else
    match p.free_stack[old_top - 1]? with
    | none => .error (.free_stack_range (old_top - 1))
    | some i => .ok { pool := p, index := i, ptr := some ((i * SLOT_SIZE) % SIZE_T_MOD) }

/-- The member `uint8_t* acquire(size_t& index)`. -/
def acquire (p : MemoryPool) (index : Nat) : Except Fault Acquired :=
  let r := p.fetch_sub 1
  r.2.acquire_rest r.1 index

/-- The body of `release` after its `fetch_add`: the write `free_stack[old_top] = index`. -/
def release_rest (p : MemoryPool) (old_top index : Nat) : Except Fault MemoryPool :=
  if old_top < p.free_stack.length then
    .ok { p with free_stack := p.free_stack.set old_top index }
  else
    .error (.free_stack_range old_top)

/-- The member `void release(size_t index)`. -/
def release (p : MemoryPool) (index : Nat) : Except Fault MemoryPool :=
  let r := p.fetch_add 1
  r.2.release_rest r.1 index

end MemoryPool

/-! ## One caller: call sequences and the leases outstanding -/

/-- What a successful `acquire` hands to its caller: the slot index written to `index` and the
returned pointer, as a position in the arena. -/
structure Lease where
  index : Nat
  ptr : Nat
  deriving DecidableEq, Repr

/-- A call on the pool. -/
inductive Call where
  | acquire
  | release (index : Nat)
  deriving DecidableEq, Repr

/-- A pool together with the leases currently outstanding: those handed out by a successful
`acquire` and not given back by a `release` since. -/
structure Client where
  pool : MemoryPool
  leased : List Lease
  deriving DecidableEq, Repr

namespace Client

/-- A caller of a freshly constructed pool: nothing is leased. -/
def new (slot_count : Nat) : Client :=
  { pool := MemoryPool.new slot_count, leased := [] }

/-- The indices currently leased. -/
def leasedIndices (c : Client) : List Nat :=
  c.leased.map Lease.index

/-- The entries of the free-list: the first `top` entries of `free_stack`. -/
def freeIndices (c : Client) : List Nat :=
  c.pool.free_stack.take c.pool.top

/-- One call.  A successful `acquire` adds the lease it returned; `release i` ends the lease of
index `i`. -/
def call (c : Client) : Call → Except Fault Client
  | .acquire =>
    match c.pool.acquire 0 with
    | .error f => .error f
    | .ok r =>
      match r.ptr with
      | none => .ok { c with pool := r.pool }
      | some q => .ok { pool := r.pool, leased := { index := r.index, ptr := q } :: c.leased }
  | .release i =>
    match c.pool.release i with
    | .error f => .error f
    | .ok p => .ok { pool := p, leased := c.leased.eraseP (fun l => l.index == i) }

/-- A sequence of calls, one after the other, stopping at the first fault. -/
def run (c : Client) : List Call → Except Fault Client
  | [] => .ok c
  | x :: xs =>
    match c.call x with
    | .error f => .error f
    | .ok c' => c'.run xs

/-- The precondition of `release` along a call sequence: each `release i` is given an index
that is leased when the call is made. -/
def admits (c : Client) : List Call → Bool
  | [] => true
  | x :: xs =>
    (match x with
      | .acquire => true
      | .release i => c.leased.any (fun l => l.index == i)) &&
    (match c.call x with
      | .error _ => true
      | .ok c' => c'.admits xs)

/-- The state of a caller of `MemoryPool(N)` between calls: the arena and the free-list have
their constructed sizes, the cursor is within the free-list, the free entries followed by the
leased indices are an arrangement of `0, ..., N - 1`, and every lease points at its slot. -/
structure Inv (N : Nat) (c : Client) : Prop where
  size : N < SIZE_T_MOD
  arena : c.pool.pool = (N * SLOT_SIZE) % SIZE_T_MOD
  length : c.pool.free_stack.length = N
  top_le : c.pool.top ≤ N
  perm : (c.freeIndices ++ c.leasedIndices).Perm (List.range N)
  ptrs : ∀ l ∈ c.leased, l.ptr = (l.index * SLOT_SIZE) % SIZE_T_MOD

end Client

/-! ## Several callers: interleavings of the atomic steps -/

/-- Where an actor stands: between calls, or inside a call, after its atomic cursor operation
(holding the value `old_top` that operation returned) and before the rest of the body. -/
inductive Pc where
  | idle
  | in_acquire (old_top : Nat)
  | in_release (old_top index : Nat)
  deriving DecidableEq, Repr

/-- An actor: its position and the leases it holds. -/
structure Actor where
  pc : Pc
  held : List Lease
  deriving DecidableEq, Repr

/-- One pool shared by several actors. -/
structure World where
  pool : MemoryPool
  actors : List Actor
  deriving DecidableEq, Repr

/-- The steps an actor can take: enter `acquire` (its `fetch_sub`), enter `release index` (its
`fetch_add`), or run the rest of the call it is in. -/
inductive Move where
  | acquire_begin
  | release_begin (index : Nat)
  | finish
  deriving DecidableEq, Repr

/-- Why a schedule stops: a fault of the code, or a step that the actor cannot take (no such
actor, a call begun inside a call, `finish` outside a call, `release` of an index the actor does
not hold). -/
inductive Stop where
  | fault (f : Fault)
  | refused
  deriving DecidableEq, Repr

namespace World

/-- The world with `actors` idle actors around a freshly constructed pool. -/
def new (slot_count actors : Nat) : World :=
  { pool := MemoryPool.new slot_count
    actors := List.replicate actors { pc := .idle, held := [] } }

/-- One step of actor `a`. -/
def step (w : World) (a : Nat) (m : Move) : Except Stop World :=
  match w.actors[a]? with
  | none => .error .refused
  | some act =>
    match act.pc, m with
    | .idle, .acquire_begin =>
      let r := w.pool.fetch_sub 1
      .ok { pool := r.2, actors := w.actors.set a { act with pc := .in_acquire r.1 } }
    | .idle, .release_begin i =>
      if act.held.any (fun l => l.index == i) then
        let r := w.pool.fetch_add 1
        .ok { pool := r.2
              actors := w.actors.set a
                { pc := .in_release r.1 i, held := act.held.eraseP (fun l => l.index == i) } }
      else .error .refused
    | .in_acquire old_top, .finish =>
      match w.pool.acquire_rest old_top 0 with
      | .error f => .error (.fault f)
      | .ok r =>
        match r.ptr with
        | none => .ok { pool := r.pool, actors := w.actors.set a { act with pc := .idle } }
        | some q =>
          .ok { pool := r.pool
                actors := w.actors.set a
                  { pc := .idle, held := { index := r.index, ptr := q } :: act.held } }
    | .in_release old_top i, .finish =>
      match w.pool.release_rest old_top i with
      | .error f => .error (.fault f)
      | .ok p => .ok { pool := p, actors := w.actors.set a { act with pc := .idle } }
    | _, _ => .error .refused

/-- A schedule: the steps of the actors in the order they happen. -/
def run (w : World) : List (Nat × Move) → Except Stop World
  | [] => .ok w
  | (a, m) :: rest =>
    match w.step a m with
    | .error e => .error e
    | .ok w' => w'.run rest

/-- The leases outstanding in the world, actor by actor. -/
def outstanding (w : World) : List Lease :=
  (w.actors.map Actor.held).flatten

/-- A schedule of two actors on `MemoryPool(2)`: actor 0 acquires twice (slots 0 and 1), then
enters `release(0)` and is preempted after its `fetch_add`, before `free_stack[0] = 0` is
written; actor 1 then runs a whole `acquire`. -/
def staleReadSchedule : List (Nat × Move) :=
  [(0, .acquire_begin), (0, .finish), (0, .acquire_begin), (0, .finish),
   (0, .release_begin 0), (1, .acquire_begin), (1, .finish)]

/-- A schedule on `MemoryPool(1)`: actor 0 acquires the only slot, then enters `acquire` again
and is preempted after its `fetch_sub`, before the test `old_top == 0` and the compensating
`fetch_add`. -/
def emptyAcquireSchedule : List (Nat × Move) :=
  [(0, .acquire_begin), (0, .finish), (0, .acquire_begin)]

/-- The schedule `emptyAcquireSchedule` followed by a whole `acquire` of actor 1. -/
def emptyAcquireThenAcquire : List (Nat × Move) :=
  emptyAcquireSchedule ++ [(1, .acquire_begin), (1, .finish)]

end World

/-! ## types.h -/

/-- The `struct FiveTuple`: `uint32_t src_ip, dst_ip; uint16_t src_port, dst_port;
uint8_t protocol`. -/
structure FiveTuple where
  src_ip : Nat
  dst_ip : Nat
  src_port : Nat
  dst_port : Nat
  protocol : Nat
  deriving DecidableEq, Repr

namespace FiveTuple

/-- The member `bool operator==(const FiveTuple& other) const`. -/
def operator_eq (t other : FiveTuple) : Bool :=
  t.src_ip == other.src_ip &&
  t.dst_ip == other.dst_ip &&
  t.src_port == other.src_port &&
  t.dst_port == other.dst_port &&
  t.protocol == other.protocol

/-- The member `FiveTuple reverse() const`:
`return {dst_ip, src_ip, dst_port, src_port, protocol};` -/
def reverse (t : FiveTuple) : FiveTuple :=
  { src_ip := t.dst_ip
    dst_ip := t.src_ip
    src_port := t.dst_port
    dst_port := t.src_port
    protocol := t.protocol }

end FiveTuple

/-- The `struct PacketJob` with its default member initializers.  A pointer is `none` for
`nullptr`.  The struct is an aggregate with public members and no constructor: a value is built
by giving its members any values of their types. -/
structure PacketJob where
  packet_id : Nat := 0
  tuple : FiveTuple := { src_ip := 0, dst_ip := 0, src_port := 0, dst_port := 0, protocol := 0 }
  data_ptr : Option Nat := none
  data_length : Nat := 0
  pool_index : Nat := 0
  eth_offset : Nat := 0
  ip_offset : Nat := 0
  transport_offset : Nat := 0
  payload_offset : Nat := 0
  payload_length : Nat := 0
  tcp_flags : Nat := 0
  payload_data : Option Nat := none
  ts_sec : Nat := 0
  ts_usec : Nat := 0
  deriving DecidableEq, Repr

namespace PacketJob

/-- The member `const uint8_t* data() const noexcept`. -/
def data (j : PacketJob) : Option Nat :=
  j.data_ptr

/-- The member `size_t size() const noexcept`. -/
def size (j : PacketJob) : Nat :=
  j.data_length

/-- Every member holds a value of its declared type: `uint32_t packet_id, pool_index, ts_sec,
ts_usec`, `uint16_t data_length`, `uint8_t tcp_flags`, `size_t` offsets and payload length. -/
def inRange (j : PacketJob) : Prop :=
  j.packet_id < 2 ^ 32 ∧ j.data_length < 2 ^ 16 ∧ j.pool_index < 2 ^ 32 ∧
  j.eth_offset < 2 ^ 64 ∧ j.ip_offset < 2 ^ 64 ∧ j.transport_offset < 2 ^ 64 ∧
  j.payload_offset < 2 ^ 64 ∧ j.payload_length < 2 ^ 64 ∧ j.tcp_flags < 2 ^ 8 ∧
  j.ts_sec < 2 ^ 32 ∧ j.ts_usec < 2 ^ 32

/-- The descriptor offset property of the specification:
`eth_offset ≤ ip_offset ≤ transport_offset ≤ payload_offset` and
`payload_offset + payload_length ≤ data_length ≤ 2048`. -/
def offsetsOrdered (j : PacketJob) : Prop :=
  j.eth_offset ≤ j.ip_offset ∧ j.ip_offset ≤ j.transport_offset ∧
  j.transport_offset ≤ j.payload_offset ∧
  j.payload_offset + j.payload_length ≤ j.data_length ∧ j.data_length ≤ 2048

/-- A descriptor whose Ethernet offset (14) lies after its IP offset (0); every other member has
its default value. -/
def misordered : PacketJob :=
  { eth_offset := 14 }

end PacketJob

/-! ## The pool: what `acquire` and `release` compute -/

namespace MemoryPool

theorem acquire_of_top_zero (p : MemoryPool) (index : Nat) (h : p.top = 0) :
    p.acquire index = .ok { pool := { p with top := 0 }, index := index, ptr := none } := by
  simp [acquire, acquire_rest, fetch_sub, fetch_add, h, SIZE_T_MOD]

theorem acquire_of_top_pos (p : MemoryPool) (index : Nat) (h0 : 0 < p.top)
    (h64 : p.top < SIZE_T_MOD) (hlen : p.top ≤ p.free_stack.length) :
    ∃ i, p.free_stack[p.top - 1]? = some i ∧
      p.acquire index =
        .ok { pool := { p with top := p.top - 1 }, index := i
              ptr := some ((i * SLOT_SIZE) % SIZE_T_MOD) } := by
  have hlt : p.top - 1 < p.free_stack.length := by omega
  refine ⟨p.free_stack[p.top - 1], List.getElem?_eq_getElem hlt, ?_⟩
  have hsub : (p.top + (SIZE_T_MOD - 1 % SIZE_T_MOD)) % SIZE_T_MOD = p.top - 1 := by
    unfold SIZE_T_MOD at *
    omega
  have hne : p.top ≠ 0 := by omega
  simp [acquire, acquire_rest, fetch_sub, hsub, hne, List.getElem?_eq_getElem hlt]

theorem release_of_top_lt (p : MemoryPool) (index : Nat) (hlen : p.top < p.free_stack.length)
    (h64 : p.top + 1 < SIZE_T_MOD) :
    p.release index =
      .ok { p with top := p.top + 1, free_stack := p.free_stack.set p.top index } := by
  have hadd : (p.top + 1) % SIZE_T_MOD = p.top + 1 := Nat.mod_eq_of_lt h64
  simp [release, release_rest, fetch_add, hadd, hlen]

end MemoryPool

/-! ## One caller: the invariant of call sequences -/

namespace Client

theorem free_stack_new (N : Nat) : (MemoryPool.new N).free_stack = (List.range N).reverse := by
  have h := List.reverse_range' 0 N
  simp only [Nat.zero_add] at h
  rw [List.range_eq_range', h]
  rfl

theorem inv_new (N : Nat) (hN : N < SIZE_T_MOD) : Inv N (Client.new N) where
  size := hN
  arena := rfl
  length := by simp [Client.new, MemoryPool.new]
  top_le := Nat.le_refl N
  perm := by
    have hfree : (Client.new N).freeIndices = (List.range N).reverse := by
      unfold freeIndices
      have : (Client.new N).pool = MemoryPool.new N := rfl
      rw [this, free_stack_new]
      apply List.take_of_length_le
      simp [MemoryPool.new]
    rw [hfree]
    simp [leasedIndices, Client.new, List.reverse_perm]
  ptrs := by simp [Client.new]

theorem inv_count {N : Nat} {c : Client} (h : Inv N c) :
    c.pool.top + c.leased.length = N := by
  have hl := h.perm.length_eq
  have htop := h.top_le
  have hlen := h.length
  simp only [freeIndices, leasedIndices, List.length_append, List.length_take, List.length_map,
    List.length_range] at hl
  omega

theorem take_set_same (l : List Nat) (n a : Nat) : (l.set n a).take n = l.take n := by
  induction l generalizing n with
  | nil => simp
  | cons x t ih =>
    cases n with
    | zero => simp
    | succ n => simp [ih]

theorem leasedIndices_eraseP (l : List Lease) (i : Nat) :
    (l.eraseP (fun x => x.index == i)).map Lease.index = (l.map Lease.index).erase i := by
  induction l with
  | nil => rfl
  | cons a t ih =>
    by_cases ha : a.index = i
    · simp [List.eraseP_cons, ha]
    · have hne : (a.index == i) = false := by simpa using ha
      simp [List.eraseP_cons, List.erase_cons, hne, ih]

theorem mem_leasedIndices (c : Client) (i : Nat) :
    c.leased.any (fun l => l.index == i) = true ↔ i ∈ c.leasedIndices := by
  simp [leasedIndices]

theorem call_acquire_of_top_zero (c : Client) (h : c.pool.top = 0) :
    c.call .acquire = .ok c := by
  have hp : ({ c.pool with top := 0 } : MemoryPool) = c.pool := by
    rw [← h]
  simp [call, MemoryPool.acquire_of_top_zero c.pool 0 h, hp]

theorem call_acquire_of_top_pos {N : Nat} {c : Client} (h : Inv N c) (h0 : 0 < c.pool.top) :
    ∃ i, c.pool.free_stack[c.pool.top - 1]? = some i ∧
      c.call .acquire =
        .ok { pool := { c.pool with top := c.pool.top - 1 }
              leased := { index := i, ptr := (i * SLOT_SIZE) % SIZE_T_MOD } :: c.leased } := by
  have h64 : c.pool.top < SIZE_T_MOD := Nat.lt_of_le_of_lt h.top_le h.size
  have hlen : c.pool.top ≤ c.pool.free_stack.length := by
    rw [h.length]
    exact h.top_le
  obtain ⟨i, hi, hacq⟩ := MemoryPool.acquire_of_top_pos c.pool 0 h0 h64 hlen
  exact ⟨i, hi, by simp [call, hacq]⟩

theorem inv_acquire_of_top_pos {N : Nat} {c : Client} (h : Inv N c) (i : Nat)
    (hi : c.pool.free_stack[c.pool.top - 1]? = some i) (h0 : 0 < c.pool.top) :
    Inv N { pool := { c.pool with top := c.pool.top - 1 }
            leased := { index := i, ptr := (i * SLOT_SIZE) % SIZE_T_MOD } :: c.leased } where
  size := h.size
  arena := h.arena
  length := h.length
  top_le := Nat.le_trans (Nat.sub_le _ _) h.top_le
  perm := by
    have hp := h.perm
    have htake : c.pool.free_stack.take c.pool.top =
        c.pool.free_stack.take (c.pool.top - 1) ++ [i] := by
      have hs : c.pool.top = (c.pool.top - 1) + 1 := by omega
      conv_lhs => rw [hs]
      rw [List.take_succ, hi]
      rfl
    simp only [freeIndices, leasedIndices, htake, List.append_assoc, List.singleton_append] at hp
    simpa [freeIndices, leasedIndices] using hp
  ptrs := by
    intro l hl
    rcases List.mem_cons.mp hl with rfl | hl
    · rfl
    · exact h.ptrs l hl

theorem call_release_of_leased {N : Nat} {c : Client} (h : Inv N c) (i : Nat)
    (hi : i ∈ c.leasedIndices) :
    c.pool.top < N ∧
    c.call (.release i) =
      .ok { pool := { c.pool with top := c.pool.top + 1
                                  free_stack := c.pool.free_stack.set c.pool.top i }
            leased := c.leased.eraseP (fun l => l.index == i) } := by
  have hcount := inv_count h
  have hpos : 0 < c.leased.length := by
    have : 0 < c.leasedIndices.length := List.length_pos_of_mem hi
    simpa [leasedIndices] using this
  have hsize := h.size
  have htop : c.pool.top < N := by omega
  have hlen : c.pool.top < c.pool.free_stack.length := by
    rw [h.length]
    exact htop
  have h64 : c.pool.top + 1 < SIZE_T_MOD := by omega
  exact ⟨htop, by simp [call, MemoryPool.release_of_top_lt c.pool i hlen h64]⟩

theorem inv_release_of_leased {N : Nat} {c : Client} (h : Inv N c) (i : Nat)
    (hi : i ∈ c.leasedIndices) (htop : c.pool.top < N) :
    Inv N { pool := { c.pool with top := c.pool.top + 1
                                  free_stack := c.pool.free_stack.set c.pool.top i }
            leased := c.leased.eraseP (fun l => l.index == i) } where
  size := h.size
  arena := h.arena
  length := by simp [h.length]
  top_le := htop
  perm := by
    have hlen : c.pool.top < c.pool.free_stack.length := by
      rw [h.length]
      exact htop
    have htake : (c.pool.free_stack.set c.pool.top i).take (c.pool.top + 1) =
        c.pool.free_stack.take c.pool.top ++ [i] := by
      rw [List.take_succ, List.getElem?_set_self hlen, take_set_same]
      rfl
    have hidx : (c.leased.eraseP (fun l => l.index == i)).map Lease.index =
        c.leasedIndices.erase i := leasedIndices_eraseP c.leased i
    simp only [freeIndices, leasedIndices, htake, hidx, List.append_assoc,
      List.singleton_append]
    exact ((List.perm_cons_erase hi).symm.append_left _).trans h.perm
  ptrs := by
    intro l hl
    exact h.ptrs l (List.mem_of_mem_eraseP hl)

/-- Every call whose precondition holds returns, and keeps the invariant. -/
theorem inv_call {N : Nat} {c : Client} (h : Inv N c) (x : Call)
    (hx : ∀ i, x = .release i → i ∈ c.leasedIndices) :
    ∃ c', c.call x = .ok c' ∧ Inv N c' := by
  cases x with
  | acquire =>
    rcases Nat.eq_zero_or_pos c.pool.top with h0 | h0
    · exact ⟨c, call_acquire_of_top_zero c h0, h⟩
    · obtain ⟨i, hi, hcall⟩ := call_acquire_of_top_pos h h0
      exact ⟨_, hcall, inv_acquire_of_top_pos h i hi h0⟩
  | release i =>
    have hi := hx i rfl
    obtain ⟨htop, hcall⟩ := call_release_of_leased h i hi
    exact ⟨_, hcall, inv_release_of_leased h i hi htop⟩

/-- Every call sequence whose releases are of leased indices runs to the end without a fault,
and the invariant holds at the end. -/
theorem inv_run {N : Nat} (xs : List Call) :
    ∀ c : Client, Inv N c → c.admits xs = true → ∃ c', c.run xs = .ok c' ∧ Inv N c' := by
  induction xs with
  | nil =>
    intro c h _
    exact ⟨c, rfl, h⟩
  | cons x xs ih =>
    intro c h hadm
    simp only [admits, Bool.and_eq_true] at hadm
    have hx : ∀ i, x = .release i → i ∈ c.leasedIndices := by
      intro i hxi
      subst hxi
      exact (mem_leasedIndices c i).mp hadm.1
    obtain ⟨c', hcall, hinv⟩ := inv_call h x hx
    have hrest : c'.admits xs = true := by
      have h2 := hadm.2
      rw [hcall] at h2
      exact h2
    obtain ⟨c'', hrun, hinv'⟩ := ih c' hinv hrest
    exact ⟨c'', by simp [run, hcall, hrun], hinv'⟩

/-- The calls made so far in an admissible sequence are an admissible sequence. -/
theorem admits_take (xs : List Call) :
    ∀ (c : Client) (k : Nat), c.admits xs = true → c.admits (xs.take k) = true := by
  induction xs with
  | nil =>
    intro c k h
    simpa using h
  | cons x xs ih =>
    intro c k h
    cases k with
    | zero => rfl
    | succ k =>
      simp only [admits, Bool.and_eq_true, List.take_succ_cons] at h ⊢
      refine ⟨h.1, ?_⟩
      cases hc : c.call x with
      | error f => rfl
      | ok c' =>
        have h2 := h.2
        rw [hc] at h2
        exact ih c' k h2

/-- After any number of calls of an admissible sequence on `MemoryPool(N)` the invariant
holds. -/
theorem inv_reached {N : Nat} (hN : N < SIZE_T_MOD) (xs : List Call)
    (hadm : (Client.new N).admits xs = true) (k : Nat) :
    ∃ c, (Client.new N).run (xs.take k) = .ok c ∧ Inv N c :=
  inv_run (xs.take k) (Client.new N) (inv_new N hN) (admits_take xs (Client.new N) k hadm)

/-- With at least `k` free entries, `k` successive `acquire` calls all take the lower branch:
the cursor drops by `k` and `k` leases are added. -/
theorem run_acquires {N : Nat} (k : Nat) :
    ∀ c : Client, Inv N c → k ≤ c.pool.top →
      ∃ c', c.run (List.replicate k .acquire) = .ok c' ∧ Inv N c' ∧
        c'.pool.top = c.pool.top - k ∧ c'.leased.length = c.leased.length + k := by
  induction k with
  | zero =>
    intro c h _
    exact ⟨c, rfl, h, rfl, rfl⟩
  | succ k ih =>
    intro c h hk
    have h0 : 0 < c.pool.top := by omega
    obtain ⟨i, hi, hcall⟩ := call_acquire_of_top_pos h h0
    have hinv := inv_acquire_of_top_pos h i hi h0
    obtain ⟨c', hrun, hinv', htop, hlen⟩ := ih _ hinv (by simp only; omega)
    refine ⟨c', ?_, hinv', ?_, ?_⟩
    · simp [List.replicate_succ, run, hcall, hrun]
    · simp only at htop
      omega
    · simp only [List.length_cons] at hlen
      omega

theorem lt_of_mem_leasedIndices {N : Nat} {c : Client} (h : Inv N c) {i : Nat}
    (hi : i ∈ c.leasedIndices) : i < N := by
  rw [← List.mem_range, ← h.perm.mem_iff]
  exact List.mem_append_right _ hi

theorem lt_of_mem_freeIndices {N : Nat} {c : Client} (h : Inv N c) {i : Nat}
    (hi : i ∈ c.freeIndices) : i < N := by
  rw [← List.mem_range, ← h.perm.mem_iff]
  exact List.mem_append_left _ hi

theorem slot_position_eq {N i : Nat} (hsize : N * 2048 < 2 ^ 64) (hi : i < N) :
    (i * SLOT_SIZE) % SIZE_T_MOD = i * 2048 := by
  unfold SLOT_SIZE SIZE_T_MOD
  apply Nat.mod_eq_of_lt
  omega

end Client

/-! ## The claims about one caller -/

/-- C1 (uniqueness invariant, one caller): for `N > 0` with `N * 2048 < 2 ^ 64`, after any
number `k` of calls of a sequence on `MemoryPool(N)` whose releases are all of currently leased
indices, the calls have returned, and the first `top` entries of `free_stack` have no duplicate,
are disjoint from the leased indices (which have no duplicate either), and together with the
leased indices are exactly `0, ..., N - 1`. -/
theorem C1_uniqueness_invariant (N : Nat) (hN : 0 < N) (hsize : N * 2048 < 2 ^ 64)
    (xs : List Call) (hadm : (Client.new N).admits xs = true) (k : Nat) :
    ∃ c, (Client.new N).run (xs.take k) = .ok c ∧
      (c.pool.free_stack.take c.pool.top).Nodup ∧
      c.leasedIndices.Nodup ∧
      (∀ x ∈ c.pool.free_stack.take c.pool.top, x ∉ c.leasedIndices) ∧
      (∀ x, x < N ↔ (x ∈ c.pool.free_stack.take c.pool.top ∨ x ∈ c.leasedIndices)) := by
  have h64 : N < SIZE_T_MOD := by
    unfold SIZE_T_MOD
    omega
  obtain ⟨c, hrun, hinv⟩ := Client.inv_reached h64 xs hadm k
  have hnd : (c.freeIndices ++ c.leasedIndices).Nodup :=
    hinv.perm.nodup_iff.mpr (List.nodup_range N)
  rw [List.nodup_append] at hnd
  refine ⟨c, hrun, hnd.1, hnd.2.1, ?_, ?_⟩
  · intro x hx hx'
    exact hnd.2.2 hx hx'
  · intro x
    rw [← List.mem_range, ← hinv.perm.mem_iff, List.mem_append]
    rfl

/-- An instance of C1: `MemoryPool(2)`, the first four calls of acquire, acquire, acquire (which
returns `nullptr`), release(1), acquire. -/
theorem C1_uniqueness_invariant_witness :
    (Client.new 2).admits [.acquire, .acquire, .acquire, .release 1, .acquire] = true ∧
    ∃ c, (Client.new 2).run
        (([.acquire, .acquire, .acquire, .release 1, .acquire] : List Call).take 4) = .ok c ∧
      (c.pool.free_stack.take c.pool.top).Nodup ∧
      c.leasedIndices.Nodup ∧
      (∀ x ∈ c.pool.free_stack.take c.pool.top, x ∉ c.leasedIndices) ∧
      (∀ x, x < 2 ↔ (x ∈ c.pool.free_stack.take c.pool.top ∨ x ∈ c.leasedIndices)) :=
  ⟨by decide,
   C1_uniqueness_invariant 2 (by decide) (by decide)
     [.acquire, .acquire, .acquire, .release 1, .acquire] (by decide) 4⟩

/-- C2 (capacity): for `N > 0` with `N * 2048 < 2 ^ 64`, on a fresh `MemoryPool(N)` and for
every `k < N`, after `k` acquires with no release (all `k` leases outstanding) the next acquire
returns a non-null pointer; after `N` acquires the next acquire returns `nullptr`. -/
theorem C2_capacity (N : Nat) (hN : 0 < N) (hsize : N * 2048 < 2 ^ 64) (index : Nat) :
    (∀ k, k < N → ∃ c, (Client.new N).run (List.replicate k .acquire) = .ok c ∧
        c.leased.length = k ∧ ∃ r q, c.pool.acquire index = .ok r ∧ r.ptr = some q) ∧
    (∃ c, (Client.new N).run (List.replicate N .acquire) = .ok c ∧
        c.leased.length = N ∧ ∃ r, c.pool.acquire index = .ok r ∧ r.ptr = none) := by
  have h64 : N < SIZE_T_MOD := by
    unfold SIZE_T_MOD
    omega
  have hnew := Client.inv_new N h64
  have htop0 : (Client.new N).pool.top = N := rfl
  have hlen0 : (Client.new N).leased.length = 0 := rfl
  constructor
  · intro k hk
    obtain ⟨c, hrun, hinv, htop, hlen⟩ :=
      Client.run_acquires k (Client.new N) hnew (by rw [htop0]; omega)
    rw [htop0] at htop
    refine ⟨c, hrun, by omega, ?_⟩
    have h0 : 0 < c.pool.top := by omega
    have hlt : c.pool.top < SIZE_T_MOD := Nat.lt_of_le_of_lt hinv.top_le h64
    have hfs : c.pool.top ≤ c.pool.free_stack.length := by
      rw [hinv.length]
      exact hinv.top_le
    obtain ⟨i, _, hacq⟩ := MemoryPool.acquire_of_top_pos c.pool index h0 hlt hfs
    exact ⟨_, _, hacq, rfl⟩
  · obtain ⟨c, hrun, _, htop, hlen⟩ :=
      Client.run_acquires N (Client.new N) hnew (by rw [htop0])
    rw [htop0] at htop
    refine ⟨c, hrun, by omega, _, MemoryPool.acquire_of_top_zero c.pool index (by omega), rfl⟩

/-- An instance of C2: `MemoryPool(2)`; the first two acquires succeed and the third returns
`nullptr`. -/
theorem C2_capacity_witness :
    (∀ k, k < 2 → ∃ c, (Client.new 2).run (List.replicate k .acquire) = .ok c ∧
        c.leased.length = k ∧ ∃ r q, c.pool.acquire 7 = .ok r ∧ r.ptr = some q) ∧
    (∃ c, (Client.new 2).run (List.replicate 2 .acquire) = .ok c ∧
        c.leased.length = 2 ∧ ∃ r, c.pool.acquire 7 = .ok r ∧ r.ptr = none) :=
  C2_capacity 2 (by decide) (by decide) 7

/-- C3 (release, then acquire): in every state reached from `MemoryPool(N)` by a call sequence
whose releases are all of currently leased indices, and for every currently leased index `i`,
`release(i)` returns and the `acquire` that follows succeeds, writes `i` to `index` and returns
the pointer to slot `i`; and `i < N`. -/
theorem C3_release_then_acquire (N : Nat) (hN : 0 < N) (hsize : N * 2048 < 2 ^ 64)
    (xs : List Call) (hadm : (Client.new N).admits xs = true) (index : Nat) :
    ∃ c, (Client.new N).run xs = .ok c ∧
      ∀ i ∈ c.leasedIndices, i < N ∧
        ∃ p r, c.pool.release i = .ok p ∧ p.acquire index = .ok r ∧
          r.index = i ∧ r.ptr = some (i * 2048) := by
  have h64 : N < SIZE_T_MOD := by
    unfold SIZE_T_MOD
    omega
  obtain ⟨c, hrun, hinv⟩ := Client.inv_run xs (Client.new N) (Client.inv_new N h64) hadm
  refine ⟨c, hrun, ?_⟩
  intro i hi
  have hiN := Client.lt_of_mem_leasedIndices hinv hi
  obtain ⟨htop, _⟩ := Client.call_release_of_leased hinv i hi
  have hlen : c.pool.top < c.pool.free_stack.length := by
    rw [hinv.length]
    exact htop
  have hrel := MemoryPool.release_of_top_lt c.pool i hlen (by omega)
  obtain ⟨j, hj, hacq⟩ := MemoryPool.acquire_of_top_pos
    { c.pool with top := c.pool.top + 1, free_stack := c.pool.free_stack.set c.pool.top i }
    index (by simp) (by simp only; omega) (by simp only [List.length_set]; omega)
  have hji : j = i := by
    simp only [Nat.add_sub_cancel, List.getElem?_set_self hlen] at hj
    exact (Option.some.inj hj).symm
  subst hji
  refine ⟨hiN, _, _, hrel, hacq, rfl, ?_⟩
  simp only
  rw [Client.slot_position_eq hsize hiN]

/-- An instance of C3: `MemoryPool(2)` with both slots acquired; releasing either index and
acquiring again returns that index. -/
theorem C3_release_then_acquire_witness :
    (Client.new 2).admits [.acquire, .acquire] = true ∧
    ∃ c, (Client.new 2).run [.acquire, .acquire] = .ok c ∧
      ∀ i ∈ c.leasedIndices, i < 2 ∧
        ∃ p r, c.pool.release i = .ok p ∧ p.acquire 7 = .ok r ∧
          r.index = i ∧ r.ptr = some (i * 2048) :=
  ⟨by decide,
   C3_release_then_acquire 2 (by decide) (by decide) [.acquire, .acquire] (by decide) 7⟩

/-- C5 (exhaustion is a clean result): `acquire` returns `nullptr` exactly when `top` is 0 on
entry, which is exactly when it returns with the pool and the caller's `index` as they were
(`free_stack` unchanged, `top` 0 again); in between, the `fetch_sub` has wrapped the cursor to
`2 ^ 64 - 1` and the `fetch_add` brings it back to 0. -/
theorem C5_exhausted_is_clean (p : MemoryPool) (index : Nat) :
    ((∃ r, p.acquire index = .ok r ∧ r.ptr = none) ↔ p.top = 0) ∧
    (p.top = 0 ↔ p.acquire index = .ok { pool := p, index := index, ptr := none }) ∧
    (p.top = 0 →
      (p.fetch_sub 1).2.top = 2 ^ 64 - 1 ∧ ((p.fetch_sub 1).2.fetch_add 1).2.top = 0 ∧
      ∀ r, p.acquire index = .ok r →
        r.ptr = none ∧ r.index = index ∧ r.pool.free_stack = p.free_stack ∧ r.pool.top = 0) := by
  have hzero : p.top = 0 → p.acquire index = .ok { pool := p, index := index, ptr := none } := by
    intro h
    rw [MemoryPool.acquire_of_top_zero p index h]
    have hp : ({ p with top := 0 } : MemoryPool) = p := by
      rw [← h]
    rw [hp]
  have hnull : ∀ r, p.acquire index = .ok r → r.ptr = none → p.top = 0 := by
    intro r hr hptr
    by_contra hne
    have hr' : (p.fetch_sub 1).2.acquire_rest p.top index = .ok r := hr
    unfold MemoryPool.acquire_rest at hr'
    rw [if_neg hne] at hr'
    split at hr'
    · cases hr'
    · injection hr' with hr'
      rw [← hr'] at hptr
      cases hptr
  refine ⟨⟨?_, ?_⟩, ⟨hzero, ?_⟩, ?_⟩
  · rintro ⟨r, hr, hptr⟩
    exact hnull r hr hptr
  · intro h
    exact ⟨_, hzero h, rfl⟩
  · intro h
    exact hnull _ h rfl
  · intro h
    refine ⟨?_, ?_, ?_⟩
    · show (p.top + (SIZE_T_MOD - 1 % SIZE_T_MOD)) % SIZE_T_MOD = 2 ^ 64 - 1
      rw [h]
      decide
    · show ((p.top + (SIZE_T_MOD - 1 % SIZE_T_MOD)) % SIZE_T_MOD + 1) % SIZE_T_MOD = 0
      rw [h]
      decide
    · intro r hr
      rw [hzero h] at hr
      injection hr with hr
      subst hr
      exact ⟨rfl, rfl, rfl, h⟩

/-- An instance of C5: `MemoryPool(2)` with both slots leased (`top = 0`), and the caller's
`index` holding 7. -/
theorem C5_exhausted_is_clean_witness :
    ((∃ r, (MemoryPool.mk 4096 [1, 0] 0).acquire 7 = .ok r ∧ r.ptr = none) ↔
      (MemoryPool.mk 4096 [1, 0] 0).top = 0) ∧
    ((MemoryPool.mk 4096 [1, 0] 0).top = 0 ↔
      (MemoryPool.mk 4096 [1, 0] 0).acquire 7 =
        .ok { pool := MemoryPool.mk 4096 [1, 0] 0, index := 7, ptr := none }) ∧
    ((MemoryPool.mk 4096 [1, 0] 0).top = 0 →
      ((MemoryPool.mk 4096 [1, 0] 0).fetch_sub 1).2.top = 2 ^ 64 - 1 ∧
      (((MemoryPool.mk 4096 [1, 0] 0).fetch_sub 1).2.fetch_add 1).2.top = 0 ∧
      ∀ r, (MemoryPool.mk 4096 [1, 0] 0).acquire 7 = .ok r →
        r.ptr = none ∧ r.index = 7 ∧
        r.pool.free_stack = (MemoryPool.mk 4096 [1, 0] 0).free_stack ∧ r.pool.top = 0) :=
  C5_exhausted_is_clean (MemoryPool.mk 4096 [1, 0] 0) 7

/-- C6 (the leased view lies inside the arena): for `N > 0` with `N * 2048 < 2 ^ 64`, in every
state reached from `MemoryPool(N)` by a call sequence whose releases are all of currently leased
indices, the arena has `N * 2048` bytes and `acquire` returns: `nullptr` when `top` is 0, and
otherwise an index below `N` with the pointer at position `index * 2048`, where
`index * 2048 + 2048` is at most the arena length. -/
theorem C6_view_inside_arena (N : Nat) (hN : 0 < N) (hsize : N * 2048 < 2 ^ 64)
    (xs : List Call) (hadm : (Client.new N).admits xs = true) (index : Nat) :
    ∃ c, (Client.new N).run xs = .ok c ∧ c.pool.pool = N * 2048 ∧
      ∃ r, c.pool.acquire index = .ok r ∧
        ((c.pool.top = 0 ∧ r.ptr = none) ∨
         (0 < c.pool.top ∧ r.index < N ∧ r.ptr = some (r.index * 2048) ∧
          r.index * 2048 + 2048 ≤ c.pool.pool)) := by
  have h64 : N < SIZE_T_MOD := by
    unfold SIZE_T_MOD
    omega
  obtain ⟨c, hrun, hinv⟩ := Client.inv_run xs (Client.new N) (Client.inv_new N h64) hadm
  have harena : c.pool.pool = N * 2048 := by
    rw [hinv.arena]
    unfold SLOT_SIZE SIZE_T_MOD
    exact Nat.mod_eq_of_lt hsize
  refine ⟨c, hrun, harena, ?_⟩
  rcases Nat.eq_zero_or_pos c.pool.top with h0 | h0
  · exact ⟨_, MemoryPool.acquire_of_top_zero c.pool index h0, Or.inl ⟨h0, rfl⟩⟩
  · have hlt : c.pool.top < SIZE_T_MOD := Nat.lt_of_le_of_lt hinv.top_le h64
    have hfs : c.pool.top ≤ c.pool.free_stack.length := by
      rw [hinv.length]
      exact hinv.top_le
    obtain ⟨i, hi, hacq⟩ := MemoryPool.acquire_of_top_pos c.pool index h0 hlt hfs
    have hmem : i ∈ c.freeIndices := by
      have hi' : (c.pool.free_stack.take c.pool.top)[c.pool.top - 1]? = some i := by
        rw [List.getElem?_take_of_lt (by omega)]
        exact hi
      exact List.getElem?_mem hi'
    have hiN := Client.lt_of_mem_freeIndices hinv hmem
    refine ⟨_, hacq, Or.inr ⟨h0, hiN, ?_, ?_⟩⟩
    · simp only
      rw [Client.slot_position_eq hsize hiN]
    · simp only
      omega

/-- An instance of C6: `MemoryPool(2)` after one acquire; the next acquire returns slot 1 at
position 2048 of the 4096-byte arena. -/
theorem C6_view_inside_arena_witness :
    (Client.new 2).admits [.acquire] = true ∧
    ∃ c, (Client.new 2).run [.acquire] = .ok c ∧ c.pool.pool = 2 * 2048 ∧
      ∃ r, c.pool.acquire 7 = .ok r ∧
        ((c.pool.top = 0 ∧ r.ptr = none) ∨
         (0 < c.pool.top ∧ r.index < 2 ∧ r.ptr = some (r.index * 2048) ∧
          r.index * 2048 + 2048 ≤ c.pool.pool)) :=
  ⟨by decide, C6_view_inside_arena 2 (by decide) (by decide) [.acquire] (by decide) 7⟩

/-- C7 (no aliasing of outstanding leases): after any number of calls of a sequence on
`MemoryPool(N)` whose releases are all of currently leased indices, any two outstanding leases
have different indices `i`, `j`, and the byte ranges `[i * 2048, i * 2048 + 2048)` and
`[j * 2048, j * 2048 + 2048)` do not overlap; when `N * 2048 < 2 ^ 64` these ranges start at the
pointers the leases were handed and lie inside the arena. -/
theorem C7_no_aliasing (N : Nat) (h64 : N < 2 ^ 64)
    (xs : List Call) (hadm : (Client.new N).admits xs = true) (k : Nat) :
    ∃ c, (Client.new N).run (xs.take k) = .ok c ∧
      c.leased.Pairwise (fun a b => a.index ≠ b.index ∧
        (a.index * 2048 + 2048 ≤ b.index * 2048 ∨ b.index * 2048 + 2048 ≤ a.index * 2048)) ∧
      (N * 2048 < 2 ^ 64 →
        ∀ l ∈ c.leased, l.ptr = l.index * 2048 ∧ l.ptr + 2048 ≤ c.pool.pool) := by
  obtain ⟨c, hrun, hinv⟩ := Client.inv_reached h64 xs hadm k
  have hnd : (c.freeIndices ++ c.leasedIndices).Nodup :=
    hinv.perm.nodup_iff.mpr (List.nodup_range N)
  rw [List.nodup_append] at hnd
  have hpair : c.leased.Pairwise (fun a b => a.index ≠ b.index) := by
    have h := hnd.2.1
    unfold Client.leasedIndices List.Nodup at h
    rw [List.pairwise_map] at h
    exact h
  refine ⟨c, hrun, hpair.imp ?_, ?_⟩
  · intro a b hab
    refine ⟨hab, ?_⟩
    omega
  · intro hsize l hl
    have hiN : l.index < N :=
      Client.lt_of_mem_leasedIndices hinv (List.mem_map_of_mem Lease.index hl)
    have hptr : l.ptr = l.index * 2048 := by
      rw [hinv.ptrs l hl, Client.slot_position_eq hsize hiN]
    have harena : c.pool.pool = N * 2048 := by
      rw [hinv.arena]
      unfold SLOT_SIZE SIZE_T_MOD
      exact Nat.mod_eq_of_lt hsize
    refine ⟨hptr, ?_⟩
    omega

/-- An instance of C7: `MemoryPool(3)` after acquire, acquire, release(0), acquire, acquire. -/
theorem C7_no_aliasing_witness :
    (Client.new 3).admits [.acquire, .acquire, .release 0, .acquire, .acquire] = true ∧
    ∃ c, (Client.new 3).run
        (([.acquire, .acquire, .release 0, .acquire, .acquire] : List Call).take 5) = .ok c ∧
      c.leased.Pairwise (fun a b => a.index ≠ b.index ∧
        (a.index * 2048 + 2048 ≤ b.index * 2048 ∨ b.index * 2048 + 2048 ≤ a.index * 2048)) ∧
      (3 * 2048 < 2 ^ 64 →
        ∀ l ∈ c.leased, l.ptr = l.index * 2048 ∧ l.ptr + 2048 ≤ c.pool.pool) :=
  ⟨by decide,
   C7_no_aliasing 3 (by decide)
     [.acquire, .acquire, .release 0, .acquire, .acquire] (by decide) 5⟩

/-- C8 (cursor invariant, one caller): for every `N > 0` (a `size_t`), after any number of calls
of a sequence on `MemoryPool(N)` whose releases are all of currently leased indices (acquires on
the exhausted pool included), `top` is at most `N`, is the number of entries of the free-list,
and is `N` minus the number of outstanding leases, which is therefore at most `N`. -/
theorem C8_cursor_invariant (N : Nat) (hN : 0 < N) (h64 : N < 2 ^ 64)
    (xs : List Call) (hadm : (Client.new N).admits xs = true) (k : Nat) :
    ∃ c, (Client.new N).run (xs.take k) = .ok c ∧
      c.pool.top ≤ N ∧
      c.freeIndices.length = c.pool.top ∧
      c.pool.top = N - c.leased.length ∧
      c.leased.length ≤ N := by
  obtain ⟨c, hrun, hinv⟩ := Client.inv_reached h64 xs hadm k
  have hcount := Client.inv_count hinv
  have htop := hinv.top_le
  have hlen := hinv.length
  refine ⟨c, hrun, htop, ?_, by omega, by omega⟩
  simp only [Client.freeIndices, List.length_take]
  omega

/-- An instance of C8: `MemoryPool(2)`, the first three calls of acquire, acquire, acquire
(on the exhausted pool), release(1), acquire. -/
theorem C8_cursor_invariant_witness :
    (Client.new 2).admits [.acquire, .acquire, .acquire, .release 1, .acquire] = true ∧
    ∃ c, (Client.new 2).run
        (([.acquire, .acquire, .acquire, .release 1, .acquire] : List Call).take 3) = .ok c ∧
      c.pool.top ≤ 2 ∧
      c.freeIndices.length = c.pool.top ∧
      c.pool.top = 2 - c.leased.length ∧
      c.leased.length ≤ 2 :=
  ⟨by decide,
   C8_cursor_invariant 2 (by decide) (by decide)
     [.acquire, .acquire, .acquire, .release 1, .acquire] (by decide) 3⟩

/-! ## Several callers -/

/-- C4 (ownership under concurrency), evaluated on the code: on `MemoryPool(2)` the schedule
`staleReadSchedule` is accepted (its one release is of an index its caller holds), and at its end
actor 0 still holds the lease of slot 1 while actor 1 has been handed slot 1 as well: two
outstanding leases of the same index, at the same arena position. -/
theorem C4_same_index_leased_twice :
    ∃ w, (World.new 2 2).run World.staleReadSchedule = .ok w ∧
      w.actors.map Actor.held =
        [[{ index := 1, ptr := 2048 }], [{ index := 1, ptr := 2048 }]] ∧
      w.outstanding = [{ index := 1, ptr := 2048 }, { index := 1, ptr := 2048 }] ∧
      ¬ (w.outstanding.map Lease.index).Nodup :=
  ⟨_, rfl, rfl, rfl, by decide⟩

/-! ## types.h -/

/-- C9, as stated, fails: `PacketJob` is an aggregate without a validating constructor, and the
descriptor `misordered` (`eth_offset = 14`, `ip_offset = 0`) holds values of the member types and
does not satisfy the offset inequalities. -/
theorem C9_unvalidated_descriptor :
    PacketJob.misordered.inRange ∧ ¬ PacketJob.misordered.offsetsOrdered := by
  constructor
  · simp [PacketJob.inRange, PacketJob.misordered]
  · simp [PacketJob.offsetsOrdered, PacketJob.misordered]

/-- C9, amended: the default-constructed `PacketJob` (every offset and length 0) satisfies the
offset inequalities; and construction checks nothing: for any offsets and lengths of the member
types there is a `PacketJob` holding them, whose `size()` is the given `data_length`. -/
theorem C9_default_descriptor_ordered :
    ({} : PacketJob).inRange ∧ ({} : PacketJob).offsetsOrdered ∧
    ∀ eth ip transport payload len data_length : Nat,
      eth < 2 ^ 64 → ip < 2 ^ 64 → transport < 2 ^ 64 → payload < 2 ^ 64 → len < 2 ^ 64 →
      data_length < 2 ^ 16 →
      ∃ j : PacketJob, j.inRange ∧ j.eth_offset = eth ∧ j.ip_offset = ip ∧
        j.transport_offset = transport ∧ j.payload_offset = payload ∧
        j.payload_length = len ∧ j.size = data_length := by
  refine ⟨?_, ?_, ?_⟩
  · simp [PacketJob.inRange]
  · simp [PacketJob.offsetsOrdered]
  · intro eth ip transport payload len data_length h1 h2 h3 h4 h5 h6
    refine ⟨{ eth_offset := eth, ip_offset := ip, transport_offset := transport,
              payload_offset := payload, payload_length := len, data_length := data_length },
            ?_, rfl, rfl, rfl, rfl, rfl, rfl⟩
    unfold PacketJob.inRange
    exact ⟨by norm_num, h6, by norm_num, h1, h2, h3, h4, h5, by norm_num, by norm_num,
      by norm_num⟩

/-- An instance of the amended C9: offsets 14, 0, 34, 54, payload length 100 and data length
4000 are held by a `PacketJob`. -/
theorem C9_default_descriptor_ordered_witness :
    ∃ j : PacketJob, j.inRange ∧ j.eth_offset = 14 ∧ j.ip_offset = 0 ∧
      j.transport_offset = 34 ∧ j.payload_offset = 54 ∧
      j.payload_length = 100 ∧ j.size = 4000 :=
  C9_default_descriptor_ordered.2.2 14 0 34 54 100 4000
    (by decide) (by decide) (by decide) (by decide) (by decide) (by decide)

/-- C10 (reversal is an involution): for every `FiveTuple t`, `t.reverse().reverse() == t` under
`operator==`, where `reverse` swaps `src_ip` with `dst_ip` and `src_port` with `dst_port` and
keeps `protocol`. -/
theorem C10_reverse_involution (t : FiveTuple) :
    t.reverse.reverse.operator_eq t = true ∧
    t.reverse.src_ip = t.dst_ip ∧ t.reverse.dst_ip = t.src_ip ∧
    t.reverse.src_port = t.dst_port ∧ t.reverse.dst_port = t.src_port ∧
    t.reverse.protocol = t.protocol := by
  refine ⟨?_, rfl, rfl, rfl, rfl, rfl⟩
  simp [FiveTuple.reverse, FiveTuple.operator_eq]

/-- C11 (reversal changes an asymmetric flow): for every `FiveTuple t` with
`src_ip != dst_ip` or `src_port != dst_port`, `t.reverse() == t` is false under `operator==`. -/
theorem C11_reverse_of_asymmetric (t : FiveTuple)
    (h : t.src_ip ≠ t.dst_ip ∨ t.src_port ≠ t.dst_port) :
    t.reverse.operator_eq t = false := by
  rcases h with h | h
  · have hne : ¬ t.dst_ip = t.src_ip := fun e => h e.symm
    simp [FiveTuple.reverse, FiveTuple.operator_eq, hne]
  · have hne : ¬ t.dst_port = t.src_port := fun e => h e.symm
    simp [FiveTuple.reverse, FiveTuple.operator_eq, hne]

/-- An instance of C11: a TCP flow from port 40000 to port 443 between two different
addresses. -/
theorem C11_reverse_of_asymmetric_witness :
    ((FiveTuple.mk 167772161 167772162 40000 443 6).src_ip ≠
        (FiveTuple.mk 167772161 167772162 40000 443 6).dst_ip ∨
      (FiveTuple.mk 167772161 167772162 40000 443 6).src_port ≠
        (FiveTuple.mk 167772161 167772162 40000 443 6).dst_port) ∧
    (FiveTuple.mk 167772161 167772162 40000 443 6).reverse.operator_eq
      (FiveTuple.mk 167772161 167772162 40000 443 6) = false :=
  ⟨Or.inl (by decide),
   C11_reverse_of_asymmetric (FiveTuple.mk 167772161 167772162 40000 443 6)
     (Or.inl (by decide))⟩

/-! ## The constructor -/

/-- The constructor returns exactly when neither vector throws, and then with the object
`MemoryPool.new slot_count`. -/
theorem MemoryPool.construct_eq_ok_iff (a : Allocator) (slot_count : Nat) (p : MemoryPool) :
    MemoryPool.construct a slot_count = .ok p ↔
      ((slot_count * SLOT_SIZE) % SIZE_T_MOD ≤ a.max_size_bytes ∧
       slot_count ≤ a.max_size_words ∧
       (slot_count * SLOT_SIZE) % SIZE_T_MOD + slot_count * 8 ≤ a.avail ∧
       p = MemoryPool.new slot_count) := by
  unfold MemoryPool.construct Allocator.vector
  by_cases h1 : a.max_size_bytes < (slot_count * SLOT_SIZE) % SIZE_T_MOD
  · simp only [h1, if_true]
    constructor
    · intro h
      cases h
    · intro h
      omega
  · by_cases h2 : a.avail < (slot_count * SLOT_SIZE) % SIZE_T_MOD * 1
    · simp only [h1, h2, if_true, if_false]
      constructor
      · intro h
        cases h
      · intro h
        omega
    · simp only [h1, h2, if_false]
      by_cases h3 : a.max_size_words < slot_count
      · simp only [h3, if_true]
        constructor
        · intro h
          cases h
        · intro h
          omega
      · by_cases h4 : a.avail - (slot_count * SLOT_SIZE) % SIZE_T_MOD * 1 < slot_count * 8
        · simp only [h3, h4, if_true, if_false]
          constructor
          · intro h
            cases h
          · intro h
            omega
        · simp only [h3, h4, if_false]
          constructor
          · intro h
            injection h with h
            exact ⟨by omega, by omega, by omega, h.symm⟩
          · intro h
            rw [h.2.2.2]

/-- With fewer than `2 ^ 56` bytes available and the `max_size()` values `2 ^ 63 - 1` and
`2 ^ 60 - 1`, the constructor builds no pool for `slot_count = 2 ^ 53`, where the `size_t`
product wraps to 0 (`free_stack` needs `2 ^ 56` bytes: `std::bad_alloc`), nor for
`slot_count = 2 ^ 52` (an arena of `2 ^ 63` bytes exceeds `max_size()`: `std::length_error`). -/
theorem MemoryPool.construct_of_huge_slot_count :
    MemoryPool.construct (Allocator.mk (2 ^ 56 - 1) (2 ^ 63 - 1) (2 ^ 60 - 1)) (2 ^ 53) =
      .error .bad_alloc ∧
    MemoryPool.construct (Allocator.mk (2 ^ 56 - 1) (2 ^ 63 - 1) (2 ^ 60 - 1)) (2 ^ 52) =
      .error .length_error ∧
    MemoryPool.construct (Allocator.mk (2 ^ 56 - 1) (2 ^ 63 - 1) (2 ^ 60 - 1)) 2 =
      .ok { pool := 4096, free_stack := [1, 0], top := 2 } :=
  ⟨rfl, rfl, rfl⟩

/-- C12 (construction): for every `slot_count > 0`, on a platform whose allocator can supply
fewer than `2 ^ 56` bytes, the constructor `MemoryPool(slot_count)` returns exactly when the two
vector sizes are within `max_size()` and `slot_count * 2048 + slot_count * 8` bytes are
available; and the pool it returns has an arena of exactly `slot_count * 2048` bytes (the
`size_t` product has not wrapped), a free-list of `slot_count` entries with
`free_stack[i] = slot_count - 1 - i` (index 0 last) holding every index of
`0, ..., slot_count - 1` exactly once, and `top = slot_count`. -/
theorem C12_construction (a : Allocator) (slot_count : Nat) (hpos : 0 < slot_count)
    (havail : a.avail < 2 ^ 56) :
    ((∃ p, MemoryPool.construct a slot_count = .ok p) ↔
      (slot_count * 2048 ≤ a.max_size_bytes ∧ slot_count ≤ a.max_size_words ∧
       slot_count * 2048 + slot_count * 8 ≤ a.avail)) ∧
    ∀ p, MemoryPool.construct a slot_count = .ok p →
      p.pool = slot_count * 2048 ∧
      p.free_stack.length = slot_count ∧
      (∀ i, i < slot_count → p.free_stack[i]? = some (slot_count - 1 - i)) ∧
      p.free_stack.Perm (List.range slot_count) ∧
      (∀ i, i < slot_count → p.free_stack.count i = 1) ∧
      (∀ i ∈ p.free_stack, i < slot_count) ∧
      p.free_stack[slot_count - 1]? = some 0 ∧
      p.top = slot_count := by
  have hwrap : slot_count * 8 ≤ a.avail →
      (slot_count * SLOT_SIZE) % SIZE_T_MOD = slot_count * 2048 := by
    intro h
    unfold SLOT_SIZE SIZE_T_MOD
    apply Nat.mod_eq_of_lt
    omega
  constructor
  · constructor
    · rintro ⟨p, hp⟩
      obtain ⟨h1, h2, h3, _⟩ := (MemoryPool.construct_eq_ok_iff a slot_count p).mp hp
      have hw := hwrap (by omega)
      rw [hw] at h1 h3
      exact ⟨h1, h2, h3⟩
    · rintro ⟨h1, h2, h3⟩
      have hw := hwrap (by omega)
      refine ⟨MemoryPool.new slot_count,
        (MemoryPool.construct_eq_ok_iff a slot_count _).mpr ⟨?_, h2, ?_, rfl⟩⟩
      · rw [hw]
        exact h1
      · rw [hw]
        exact h3
  · intro p hp
    obtain ⟨_, _, h3, hnew⟩ := (MemoryPool.construct_eq_ok_iff a slot_count p).mp hp
    have hw := hwrap (by omega)
    subst hnew
    have hperm : (MemoryPool.new slot_count).free_stack.Perm (List.range slot_count) := by
      rw [Client.free_stack_new]
      exact List.reverse_perm _
    have hget : ∀ i, i < slot_count →
        (MemoryPool.new slot_count).free_stack[i]? = some (slot_count - 1 - i) := by
      intro i hi
      simp [MemoryPool.new, List.getElem?_map, List.getElem?_range hi]
    refine ⟨hw, ?_, hget, hperm, ?_, ?_, ?_, rfl⟩
    · simp [MemoryPool.new]
    · intro i hi
      rw [hperm.count_eq]
      exact List.count_eq_one_of_mem (List.nodup_range slot_count) (List.mem_range.mpr hi)
    · intro i hi
      exact List.mem_range.mp (hperm.mem_iff.mp hi)
    · have h := hget (slot_count - 1) (by omega)
      have h0 : slot_count - 1 - (slot_count - 1) = 0 := by omega
      rw [h0] at h
      exact h

/-- An instance of C12: `MemoryPool(2)` with `2 ^ 30` bytes available and the `max_size()`
values `2 ^ 63 - 1` and `2 ^ 60 - 1`. -/
theorem C12_construction_witness :
    ((∃ p, MemoryPool.construct (Allocator.mk (2 ^ 30) (2 ^ 63 - 1) (2 ^ 60 - 1)) 2 = .ok p) ↔
      (2 * 2048 ≤ (Allocator.mk (2 ^ 30) (2 ^ 63 - 1) (2 ^ 60 - 1)).max_size_bytes ∧
       2 ≤ (Allocator.mk (2 ^ 30) (2 ^ 63 - 1) (2 ^ 60 - 1)).max_size_words ∧
       2 * 2048 + 2 * 8 ≤ (Allocator.mk (2 ^ 30) (2 ^ 63 - 1) (2 ^ 60 - 1)).avail)) ∧
    ∀ p, MemoryPool.construct (Allocator.mk (2 ^ 30) (2 ^ 63 - 1) (2 ^ 60 - 1)) 2 = .ok p →
      p.pool = 2 * 2048 ∧
      p.free_stack.length = 2 ∧
      (∀ i, i < 2 → p.free_stack[i]? = some (2 - 1 - i)) ∧
      p.free_stack.Perm (List.range 2) ∧
      (∀ i, i < 2 → p.free_stack.count i = 1) ∧
      (∀ i ∈ p.free_stack, i < 2) ∧
      p.free_stack[2 - 1]? = some 0 ∧
      p.top = 2 :=
  C12_construction (Allocator.mk (2 ^ 30) (2 ^ 63 - 1) (2 ^ 60 - 1)) 2 (by decide) (by decide)

/-! ## Further facts about the pool and about runs of acquires -/

namespace MemoryPool

theorem release_of_length_le (p : MemoryPool) (index : Nat)
    (h : p.free_stack.length ≤ p.top) :
    p.release index = .error (.free_stack_range p.top) := by
  have hnot : ¬ p.top < p.free_stack.length := Nat.not_lt.mpr h
  simp [release, release_rest, fetch_add, hnot]

theorem free_stack_new_getElem? (N i : Nat) (hi : i < N) :
    (MemoryPool.new N).free_stack[i]? = some (N - 1 - i) := by
  simp [MemoryPool.new, List.getElem?_map, List.getElem?_range hi]

theorem set_of_getElem? (l : List Nat) (n a : Nat) (h : l[n]? = some a) : l.set n a = l := by
  induction l generalizing n with
  | nil => rfl
  | cons x t ih =>
    cases n with
    | zero =>
      simp only [List.getElem?_cons_zero, Option.some.injEq] at h
      simp [h]
    | succ n =>
      simp only [List.getElem?_cons_succ] at h
      simp [ih n h]

end MemoryPool

namespace Client

/-- With at least `k` free entries, `k` successive `acquire` calls only lower the cursor by `k`:
the arena and `free_stack` are untouched. -/
theorem run_acquires_pool {N : Nat} (k : Nat) :
    ∀ c : Client, Inv N c → k ≤ c.pool.top →
      ∃ c', c.run (List.replicate k .acquire) = .ok c' ∧ Inv N c' ∧
        c'.pool = { c.pool with top := c.pool.top - k } ∧
        c'.leased.length = c.leased.length + k := by
  induction k with
  | zero =>
    intro c h _
    exact ⟨c, rfl, h, rfl, rfl⟩
  | succ k ih =>
    intro c h hk
    have h0 : 0 < c.pool.top := by omega
    obtain ⟨i, hi, hcall⟩ := call_acquire_of_top_pos h h0
    have hinv := inv_acquire_of_top_pos h i hi h0
    obtain ⟨c', hrun, hinv', hpool, hlen⟩ := ih _ hinv (by simp only; omega)
    refine ⟨c', ?_, hinv', ?_, ?_⟩
    · simp [List.replicate_succ, run, hcall, hrun]
    · rw [hpool]
      simp only [MemoryPool.mk.injEq, true_and]
      omega
    · simp only [List.length_cons] at hlen
      omega

end Client

/-! ## The cursor under concurrency -/

/-- C13 (cursor range under concurrency), evaluated on the code: on `MemoryPool(1)`, once the
only slot is leased, the `fetch_sub` of the next `acquire` wraps `top` from 0 to `2 ^ 64 - 1`,
which is outside `[0, 1]`, until the compensating `fetch_add` runs; an `acquire` of another actor
started in between sees `old_top = 2 ^ 64 - 1`, takes the success branch and subscripts
`free_stack` at `2 ^ 64 - 2`. -/
theorem C13_cursor_leaves_range :
    (∃ w, (World.new 1 2).run World.emptyAcquireSchedule = .ok w ∧
      w.outstanding = [{ index := 0, ptr := 0 }] ∧
      w.pool.top = 2 ^ 64 - 1 ∧ ¬ w.pool.top ≤ 1) ∧
    (World.new 1 2).run World.emptyAcquireThenAcquire =
      .error (.fault (.free_stack_range (2 ^ 64 - 2))) :=
  ⟨⟨_, rfl, rfl, rfl, by decide⟩, rfl⟩

/-! ## Misuse of `release` -/

/-- C14 (double release): `release` checks nothing about its argument. On `MemoryPool(2)` after
two successful acquires (so that 0 is leased), two calls `release(0)` both return and leave the
free-list `[0, 0]`; the next two acquires both succeed and both return index 0. And whatever
index is passed to the second `release`, leased or not, in range or not, it is stored. -/
theorem C14_double_release :
    ∃ c p1 p2 r1 r2,
      (Client.new 2).run [.acquire, .acquire] = .ok c ∧ 0 ∈ c.leasedIndices ∧
      c.pool.release 0 = .ok p1 ∧ p1.release 0 = .ok p2 ∧
      p2.free_stack.take p2.top = [0, 0] ∧
      p2.acquire 7 = .ok r1 ∧ r1.index = 0 ∧ r1.ptr = some 0 ∧
      r1.pool.acquire 7 = .ok r2 ∧ r2.index = 0 ∧ r2.ptr = some 0 ∧
      ∀ i, p1.release i = .ok { p1 with top := 2, free_stack := [0, i] } :=
  ⟨_, _, _, _, _, rfl, by decide, rfl, rfl, rfl, rfl, rfl, rfl, rfl, rfl, rfl,
    fun i => MemoryPool.release_of_top_lt
      { pool := 4096, free_stack := [0, 0], top := 1 } i (by decide) (by decide)⟩

/-! ## Bounds of the free-list accesses, and the order of the slots -/

/-- C15 (free-list accesses are in bounds under the precondition): in every state reached from
`MemoryPool(N)` by a call sequence whose releases are all of currently leased indices,
`free_stack` has `N` entries; `acquire` returns, with `nullptr` and `free_stack` untouched when
`top` is 0 and otherwise after reading `free_stack[old_top - 1]` with `old_top - 1 < N`;
`release` of a leased index returns after writing `free_stack[old_top]` with `old_top < N`;
whereas with no lease outstanding `top` is `N` and `release` subscripts `free_stack` at `N`,
outside the free-list. -/
theorem C15_free_stack_accesses (N : Nat) (h64 : N < 2 ^ 64)
    (xs : List Call) (hadm : (Client.new N).admits xs = true) (index : Nat) :
    ∃ c, (Client.new N).run xs = .ok c ∧ c.pool.free_stack.length = N ∧
      (∃ r, c.pool.acquire index = .ok r ∧
        ((c.pool.top = 0 ∧ r.ptr = none ∧ r.pool.free_stack = c.pool.free_stack) ∨
         (0 < c.pool.top ∧ c.pool.top - 1 < N ∧
          c.pool.free_stack[c.pool.top - 1]? = some r.index ∧ r.ptr ≠ none))) ∧
      (∀ i ∈ c.leasedIndices, c.pool.top < N ∧
        ∃ p, c.pool.release i = .ok p ∧ p.free_stack = c.pool.free_stack.set c.pool.top i) ∧
      (c.leased = [] →
        c.pool.top = N ∧ ∀ i, c.pool.release i = .error (.free_stack_range N)) := by
  obtain ⟨c, hrun, hinv⟩ := Client.inv_run xs (Client.new N) (Client.inv_new N h64) hadm
  have hlen := hinv.length
  have htop := hinv.top_le
  refine ⟨c, hrun, hlen, ?_, ?_, ?_⟩
  · rcases Nat.eq_zero_or_pos c.pool.top with h0 | h0
    · exact ⟨_, MemoryPool.acquire_of_top_zero c.pool index h0, Or.inl ⟨h0, rfl, rfl⟩⟩
    · have hlt : c.pool.top < SIZE_T_MOD := Nat.lt_of_le_of_lt htop h64
      obtain ⟨i, hi, hacq⟩ :=
        MemoryPool.acquire_of_top_pos c.pool index h0 hlt (by rw [hlen]; exact htop)
      refine ⟨_, hacq, Or.inr ⟨h0, by omega, hi, ?_⟩⟩
      simp
  · intro i hi
    obtain ⟨hlt, _⟩ := Client.call_release_of_leased hinv i hi
    have h64' : c.pool.top + 1 < SIZE_T_MOD := by
      unfold SIZE_T_MOD
      omega
    exact ⟨hlt, _, MemoryPool.release_of_top_lt c.pool i (by rw [hlen]; exact hlt) h64', rfl⟩
  · intro hnil
    have hcount := Client.inv_count hinv
    rw [hnil] at hcount
    have hN : c.pool.top = N := by simpa using hcount
    refine ⟨hN, ?_⟩
    intro i
    have h := MemoryPool.release_of_length_le c.pool i (by rw [hlen, hN])
    rw [hN] at h
    exact h

/-- An instance of C15: `MemoryPool(2)` after one acquire. -/
theorem C15_free_stack_accesses_witness :
    (Client.new 2).admits [.acquire] = true ∧
    ∃ c, (Client.new 2).run [.acquire] = .ok c ∧ c.pool.free_stack.length = 2 ∧
      (∃ r, c.pool.acquire 7 = .ok r ∧
        ((c.pool.top = 0 ∧ r.ptr = none ∧ r.pool.free_stack = c.pool.free_stack) ∨
         (0 < c.pool.top ∧ c.pool.top - 1 < 2 ∧
          c.pool.free_stack[c.pool.top - 1]? = some r.index ∧ r.ptr ≠ none))) ∧
      (∀ i ∈ c.leasedIndices, c.pool.top < 2 ∧
        ∃ p, c.pool.release i = .ok p ∧ p.free_stack = c.pool.free_stack.set c.pool.top i) ∧
      (c.leased = [] →
        c.pool.top = 2 ∧ ∀ i, c.pool.release i = .error (.free_stack_range 2)) :=
  ⟨by decide, C15_free_stack_accesses 2 (by decide) [.acquire] (by decide) 7⟩

/-- C16 (acquire, then release of the acquired index, is the identity): for every pool state
with `0 < top <= N`, where `N` is the length of `free_stack` (and `top` a `size_t`), `acquire`
succeeds with some index `i`, and `release(i)` right after it returns the pool exactly as it was
before the `acquire`: the same `top` and the same `free_stack`. -/
theorem C16_acquire_release_identity (p : MemoryPool) (index : Nat)
    (h0 : 0 < p.top) (hlen : p.top ≤ p.free_stack.length) (h64 : p.top < 2 ^ 64) :
    ∃ r, p.acquire index = .ok r ∧ r.ptr ≠ none ∧
      p.free_stack[p.top - 1]? = some r.index ∧
      r.pool.release r.index = .ok p := by
  obtain ⟨i, hi, hacq⟩ := MemoryPool.acquire_of_top_pos p index h0 h64 hlen
  refine ⟨_, hacq, by simp, hi, ?_⟩
  have hrel := MemoryPool.release_of_top_lt { p with top := p.top - 1 } i
    (by simp only; omega) (by unfold SIZE_T_MOD; simp only; omega)
  simp only at hrel
  rw [hrel, MemoryPool.set_of_getElem? p.free_stack (p.top - 1) i hi]
  have htop : p.top - 1 + 1 = p.top := by omega
  rw [htop]

/-- An instance of C16: a pool of three slots with slot 1 leased and `free_stack = [2, 0, 1]`,
`top = 2`. -/
theorem C16_acquire_release_identity_witness :
    ∃ r, (MemoryPool.mk 6144 [2, 0, 1] 2).acquire 7 = .ok r ∧ r.ptr ≠ none ∧
      (MemoryPool.mk 6144 [2, 0, 1] 2).free_stack[(MemoryPool.mk 6144 [2, 0, 1] 2).top - 1]? =
        some r.index ∧
      r.pool.release r.index = .ok (MemoryPool.mk 6144 [2, 0, 1] 2) :=
  C16_acquire_release_identity (MemoryPool.mk 6144 [2, 0, 1] 2) 7
    (by decide) (by decide) (by decide)

/-- C17 (a fresh pool hands out indices in ascending order): for every `N > 0` (a `size_t`) and
every `k` with `1 <= k <= N`, after `k - 1` acquires on a fresh `MemoryPool(N)` with no release,
the `k`-th `acquire` succeeds and returns index `k - 1`; the constructor has filled
`free_stack[i] = N - 1 - i`. -/
theorem C17_fresh_pool_ascending (N k : Nat) (hN : 0 < N) (h64 : N < 2 ^ 64)
    (hk1 : 1 ≤ k) (hkN : k ≤ N) (index : Nat) :
    (∀ i, i < N → (MemoryPool.new N).free_stack[i]? = some (N - 1 - i)) ∧
    ∃ c, (Client.new N).run (List.replicate (k - 1) .acquire) = .ok c ∧
      c.leased.length = k - 1 ∧
      ∃ r, c.pool.acquire index = .ok r ∧ r.index = k - 1 ∧ r.ptr ≠ none := by
  refine ⟨MemoryPool.free_stack_new_getElem? N, ?_⟩
  have htop0 : (Client.new N).pool.top = N := rfl
  obtain ⟨c, hrun, hinv, hpool, hlen⟩ :=
    Client.run_acquires_pool (k - 1) (Client.new N) (Client.inv_new N h64)
      (by rw [htop0]; omega)
  have hlen0 : (Client.new N).leased.length = 0 := rfl
  refine ⟨c, hrun, by omega, ?_⟩
  have hfs : c.pool.free_stack = (MemoryPool.new N).free_stack := by
    rw [hpool]
    rfl
  have htop : c.pool.top = N - (k - 1) := by
    rw [hpool]
    rfl
  have hlt : c.pool.top < SIZE_T_MOD := Nat.lt_of_le_of_lt hinv.top_le h64
  obtain ⟨i, hi, hacq⟩ := MemoryPool.acquire_of_top_pos c.pool index (by omega) hlt
    (by rw [hinv.length]; exact hinv.top_le)
  rw [hfs, htop, MemoryPool.free_stack_new_getElem? N (N - (k - 1) - 1) (by omega)] at hi
  have hik : i = k - 1 := by
    have := Option.some.inj hi
    omega
  refine ⟨_, hacq, hik, ?_⟩
  simp

/-- An instance of C17: on `MemoryPool(3)` the second acquire returns index 1. -/
theorem C17_fresh_pool_ascending_witness :
    (∀ i, i < 3 → (MemoryPool.new 3).free_stack[i]? = some (3 - 1 - i)) ∧
    ∃ c, (Client.new 3).run (List.replicate (2 - 1) .acquire) = .ok c ∧
      c.leased.length = 2 - 1 ∧
      ∃ r, c.pool.acquire 7 = .ok r ∧ r.index = 2 - 1 ∧ r.ptr ≠ none :=
  C17_fresh_pool_ascending 3 2 (by decide) (by decide) (by decide) (by decide) 7

end DPI
